import Mathlib

/-!
Verification of the adwapach core logic against its specification.

The Rust source is shallowly embedded:
* machine integers (`i32`, `u32`, `usize`) become `Int`/`Nat` (no overflow is
  reachable at the magnitudes involved);
* `f32` arithmetic in the layout normalization is modelled exactly over `ℚ`
  (the algorithm is pure field arithmetic on values cast from integers);
* panicking operations (`Vec::remove`, `Vec::swap`, indexing out of bounds)
  become `Option`-returning functions, `none` marking the panic;
* the `uuid::Uuid` identifier type is abstracted to `Nat` (only equality is
  used by the code) and the opaque GPU texture handle to the decoded image.
-/

namespace Adwapach

/-- Two-component vector, after `vek::Vec2`. -/
structure V2 (α : Type) where
  x : α
  y : α
deriving DecidableEq, Repr

/-- Preview rectangle `(left, top, right, bottom)`, after `vek::Vec4<f32>`
(modelled over `ℚ`). -/
structure Rect4 where
  x : ℚ
  y : ℚ
  z : ℚ
  w : ℚ
deriving DecidableEq, Repr

/-- `Fitting` from `src/model/application.rs`. -/
inductive Fitting where
  | Center
  | Tile
  | Stretch
  | Contain
  | Cover
deriving DecidableEq, Repr

/-- `Wallpaper` from `src/model/application.rs`: generated id, filename,
fitting mode. -/
structure Wallpaper where
  uuid : Nat
  filename : String
  fitting : Fitting
deriving DecidableEq, Repr

/-- `WallpaperListOperation` from `src/model/application.rs`. -/
inductive WallpaperListOperation where
  | Remove
  | MoveUp
  | MoveDown
  | SetFitting (f : Fitting)
deriving DecidableEq, Repr

/-- `ApplicationEvent` from `src/model/application.rs`. -/
inductive ApplicationEvent where
  | MonitorsUpdated
  | WallpapersUpdated
deriving DecidableEq, Repr

/-- `Vec::swap(i, j)` restricted to the in-bounds case; callers model the
out-of-bounds panic separately. -/
def listSwap (l : List Wallpaper) (i j : Nat) : List Wallpaper :=
  match l[i]?, l[j]? with
  | some a, some b => (l.set i b).set j a
  | _, _ => l

/-- `Application::update_wallpaper` from `src/model/application.rs`.
Returns `none` where the Rust code panics (out-of-bounds `Vec::remove`,
`Vec::swap`, or index expression); otherwise returns the new list together
with the events published by the call (the trailing
`subscribers.notify(WallpapersUpdated)`). -/
def update_wallpaper (ws : List Wallpaper) (index : Nat) (op : WallpaperListOperation) :
    Option (List Wallpaper × List ApplicationEvent) :=
  (match op with
    | .Remove =>
        if index < ws.length then some (ws.eraseIdx index) else none
    | .MoveUp =>
        if 0 < index then
          if index < ws.length then some (listSwap ws index (index - 1)) else none
        else some ws
    | .MoveDown =>
        if index + 1 < ws.length then some (listSwap ws index (index + 1)) else some ws
    | .SetFitting f =>
        match ws[index]? with
        | some w => some (ws.set index { w with fitting := f })
        | none => none
  ).map fun l => (l, [ApplicationEvent.WallpapersUpdated])

/-- `Monitor` from `src/windows/wallpaper.rs`: platform id (abstracted to
`Nat`), display name, integer top-left position and physical size. -/
structure Monitor where
  id : Nat
  name : String
  position : V2 Int
  size : V2 Int
deriving DecidableEq, Repr

/-- The `x_points` list built by `vm_update_monitors`
(`src/view/application.rs`): for each monitor, both `position.x` and
`position.x + size.x`, in input order. -/
def xpoints : List Monitor → List Int
  | [] => []
  | m :: rest => m.position.x :: (m.position.x + m.size.x) :: xpoints rest

/-- The `y_points` list built by `vm_update_monitors`. -/
def ypoints : List Monitor → List Int
  | [] => []
  | m :: rest => m.position.y :: (m.position.y + m.size.y) :: ypoints rest

/-- `Iterator::min` over an `i32` list; the `[]` default is the unreachable
`expect` branch (the list is non-empty whenever it is consulted). -/
def listMin : List Int → Int
  | [] => 0
  | [a] => a
  | a :: b :: rest => min a (listMin (b :: rest))

/-- `Iterator::max` over an `i32` list, default as in `listMin`. -/
def listMax : List Int → Int
  | [] => 0
  | [a] => a
  | a :: b :: rest => max a (listMax (b :: rest))

/-- `left_all` in `vm_update_monitors` (min of `x_points`, then cast). -/
def leftAll (ms : List Monitor) : Int := listMin (xpoints ms)

/-- `right_all` in `vm_update_monitors`. -/
def rightAll (ms : List Monitor) : Int := listMax (xpoints ms)

/-- `top_all` in `vm_update_monitors`. -/
def topAll (ms : List Monitor) : Int := listMin (ypoints ms)

/-- `bottom_all` in `vm_update_monitors`. -/
def bottomAll (ms : List Monitor) : Int := listMax (ypoints ms)

/-- `whole_size.x = right_all - left_all` (f32 arithmetic modelled on `ℚ`). -/
def wholeSizeX (ms : List Monitor) : ℚ := (rightAll ms : ℚ) - (leftAll ms : ℚ)

/-- `whole_size.y = bottom_all - top_all`. -/
def wholeSizeY (ms : List Monitor) : ℚ := (bottomAll ms : ℚ) - (topAll ms : ℚ)

/-- `divider = whole_size.x.max(whole_size.y)`. -/
def divider (ms : List Monitor) : ℚ := max (wholeSizeX ms) (wholeSizeY ms)

/-- `whole_offset.x = (divider - whole_size.x) / 2`. -/
def offsetX (ms : List Monitor) : ℚ := (divider ms - wholeSizeX ms) / 2

/-- `whole_offset.y = (divider - whole_size.y) / 2`. -/
def offsetY (ms : List Monitor) : ℚ := (divider ms - wholeSizeY ms) / 2

/-- The `preview_rect` computed by `MonitorView::new`
(`src/view/application.rs`): normalized position, then position plus
normalized size. -/
def monitorViewRect (m : Monitor) (tlx tly ox oy dv : ℚ) : Rect4 :=
  let npx : ℚ := ((m.position.x : ℚ) - tlx + ox) / dv
  let npy : ℚ := ((m.position.y : ℚ) - tly + oy) / dv
  let nsx : ℚ := (m.size.x : ℚ) / dv
  let nsy : ℚ := (m.size.y : ℚ) / dv
  ⟨npx, npy, npx + nsx, npy + nsy⟩

/-- `ApplicationView::vm_update_monitors`: clears the view list, returns early
on an empty monitor list (selection cleared, no divider computed), otherwise
pushes one preview rect per monitor in input order and selects index 0.
Result: (preview rects, selected monitor index). -/
def vm_update_monitors (ms : List Monitor) : List Rect4 × Option Nat :=
  if ms.isEmpty then ([], none)
  else
    (ms.map fun m =>
      monitorViewRect m (leftAll ms) (topAll ms) (offsetX ms) (offsetY ms) (divider ms),
     some 0)

/-- `EventManager::notify` (`src/mvvm/event.rs` and `src/model/mod.rs`).
Subscriber callbacks are identified by `Nat` keys; `alive k` models whether
some `Subscription` handle still owns callback `k` (i.e. `Weak::upgrade`
succeeds). The pass invokes every still-alive subscriber in registration
order, and compacts the registry afterwards when some entry was expired.
Returns (invoked callbacks in order, registry after the pass); the function
is total — an expired subscriber is skipped, never an error. -/
def notifyPass (alive : Nat → Bool) (subs : List Nat) : List Nat × List Nat :=
  (subs.filter alive,
   if subs.any (fun s => !alive s) then subs.filter alive else subs)

/-- C1's spec-side bounding box, written from the specification's words:
`left = min(p.x)` over all monitors. -/
def specLeft (ms : List Monitor) : Int := listMin (ms.map fun m => m.position.x)

/-- Spec-side `top = min(p.y)`. -/
def specTop (ms : List Monitor) : Int := listMin (ms.map fun m => m.position.y)

/-- Spec-side `right = max(p.x + s.x)`. -/
def specRight (ms : List Monitor) : Int := listMax (ms.map fun m => m.position.x + m.size.x)

/-- Spec-side `bottom = max(p.y + s.y)`. -/
def specBottom (ms : List Monitor) : Int := listMax (ms.map fun m => m.position.y + m.size.y)

/-- Spec-side `divider = max(right - left, bottom - top)`. -/
def specDivider (ms : List Monitor) : ℚ :=
  max ((specRight ms : ℚ) - (specLeft ms : ℚ)) ((specBottom ms : ℚ) - (specTop ms : ℚ))

/-- Spec-side `offset.x = (divider - (right - left)) / 2`. -/
def specOffsetX (ms : List Monitor) : ℚ :=
  (specDivider ms - ((specRight ms : ℚ) - (specLeft ms : ℚ))) / 2

/-- Spec-side `offset.y = (divider - (bottom - top)) / 2`. -/
def specOffsetY (ms : List Monitor) : ℚ :=
  (specDivider ms - ((specBottom ms : ℚ) - (specTop ms : ℚ))) / 2

/-- Spec-side emitted rects, in input order:
`normalized_position = (p - (left,top) + offset) / divider`,
`normalized_size = s / divider`,
`PreviewRect = (normalized_position, normalized_position + normalized_size)`. -/
def specPreviewRects (ms : List Monitor) : List Rect4 :=
  ms.map fun m =>
    let npx : ℚ := ((m.position.x : ℚ) - (specLeft ms : ℚ) + specOffsetX ms) / specDivider ms
    let npy : ℚ := ((m.position.y : ℚ) - (specTop ms : ℚ) + specOffsetY ms) / specDivider ms
    let nsx : ℚ := (m.size.x : ℚ) / specDivider ms
    let nsy : ℚ := (m.size.y : ℚ) / specDivider ms
    ⟨npx, npy, npx + nsx, npy + nsy⟩

/-- A concrete monitor for witnesses. -/
def mon0 : Monitor := ⟨0, "Monitor 0", ⟨0, 0⟩, ⟨1920, 1080⟩⟩

/-- Second monitor of the spec's numeric scenario. -/
def mon1 : Monitor := ⟨1, "Monitor 1", ⟨1920, 0⟩, ⟨1280, 1024⟩⟩

/-- The spec's numeric scenario input. -/
def ms5 : List Monitor := [mon0, mon1]

/-- The preview rect of `mon0` alone (divider 1920, offset (0, 420)). -/
def rect0 : Rect4 := ⟨0, 7 / 32, 1, 25 / 32⟩

/-- Concrete wallpapers used in scenario witnesses. -/
def wA : Wallpaper := ⟨0, "a.png", Fitting.Cover⟩

def wB : Wallpaper := ⟨1, "b.png", Fitting.Cover⟩

def wC : Wallpaper := ⟨2, "c.png", Fitting.Center⟩

/-- A decoded bitmap, abstracted to its pixel dimensions (no claim concerns
pixel contents). -/
structure Image where
  width : Nat
  height : Nat
deriving DecidableEq, Repr

/-- `DynamicImage::crop(x, y, cw, ch)`: the crop rectangle is clamped to the
image bounds (`Nat` subtraction models the clamp). -/
def crop (img : Image) (x y cw ch : Nat) : Image :=
  ⟨min cw (img.width - x), min ch (img.height - y)⟩

/-- The blank 128x128 placeholder substituted on decode failure
(`ImageBuffer::new(128, 128)`). -/
def placeholder : Image := ⟨128, 128⟩

/-- Body of the unmet-file loop in `vm_reconstruct_wallpaper_cache`
(`src/view/application.rs`): `decode` stands for the external `image::open`
collaborator (`none` = decode error) and `resize` for the external
`DynamicImage::resize(512, 512, Gaussian)` collaborator. On failure the
placeholder is substituted and the original size recorded as (0,0); either
way the result is center-cropped to a square of side
`min(width, height)` at offset `(dim - side) / 2`. Returns the stored
thumbnail and the recorded original size. -/
def loadThumb (decode : String → Option Image) (resize : Image → Image)
    (filename : String) : Image × V2 Nat :=
  let p : Image × V2 Nat :=
    match decode filename with
    | some i => (resize i, ⟨i.width, i.height⟩)
    | none => (placeholder, ⟨0, 0⟩)
  let rectSize := min p.1.width p.1.height
  (crop p.1 ((p.1.width - rectSize) / 2) ((p.1.height - rectSize) / 2)
    rectSize rectSize, p.2)

/-- A thumbnail cache entry: the uploaded texture (abstracted to the cropped
image it was made from) and the original pixel dimensions. -/
structure CacheEntry where
  texture : Image
  originalSize : V2 Nat
deriving DecidableEq, Repr

/-- The `HashMap<Uuid, (TextureHandle, Vec2<u32>)>` wallpaper cache, as a
partial map on abstracted ids. -/
abbrev Cache : Type := Nat → Option CacheEntry

/-- `HashMap::insert`. -/
def cacheInsert (c : Cache) (k : Nat) (v : CacheEntry) : Cache :=
  fun k2 => if k2 = k then some v else c k2

/-- `WallpaperView` from `src/view/application.rs` (uuid, filename, optional
original size, fitting). -/
structure WallpaperView where
  uuid : Nat
  filename : String
  size : Option (V2 Nat)
  fitting : Fitting
deriving DecidableEq, Repr

instance : Inhabited WallpaperView where
  default := ⟨0, "", none, Fitting.Center⟩

/-- `WallpaperView::new`: metadata from a wallpaper, size unknown. -/
def wallpaperView (w : Wallpaper) : WallpaperView :=
  ⟨w.uuid, w.filename, none, w.fitting⟩

/-- Metadata phase of `vm_reconstruct_wallpaper_cache`: one pass over the
snapshot (enumerated from `n`), rebuilding the view list, collecting the ids
already cached into `active_thumbnails` (and filling their sizes from the
cache) and the cache misses into `unmet_thumbnails` as (index, filename), in
input order. Result: (views, active, unmet). -/
def buildViews (cache : Cache) (n : Nat) :
    List Wallpaper → List WallpaperView × List Nat × List (Nat × String)
  | [] => ([], [], [])
  | w :: rest =>
    let r := buildViews cache (n + 1) rest
    match cache w.uuid with
    | some e =>
        ({ wallpaperView w with size := some e.originalSize } :: r.1,
         w.uuid :: r.2.1, r.2.2)
    | none => (wallpaperView w :: r.1, r.2.1, (n, w.filename) :: r.2.2)

/-- `view.wallpapers[index].size = Some(original_size)`. In a non-overlapped
pass the index is always in range (it was produced by enumerating the same
list), so the out-of-range branch is unreachable. -/
def setViewSize (views : List WallpaperView) (i : Nat) (sz : V2 Nat) :
    List WallpaperView :=
  match views[i]? with
  | some v => views.set i { v with size := some sz }
  | none => views

/-- The unmet-file loading loop of `vm_reconstruct_wallpaper_cache`: for each
(index, filename), decode/resize/crop the file, record the original size in
the view at `index`, insert the entry into the cache keyed by that view's
uuid, and mark the id active. -/
def loadLoop (decode : String → Option Image) (resize : Image → Image) :
    List (Nat × String) → List WallpaperView → Cache → List Nat →
      List WallpaperView × Cache × List Nat
  | [], views, cache, act => (views, cache, act)
  | (index, filename) :: rest, views, cache, act =>
    let t := loadThumb decode resize filename
    let id := (views.getD index default).uuid
    loadLoop decode resize rest (setViewSize views index t.2)
      (cacheInsert cache id ⟨t.1, t.2⟩) (id :: act)

/-- `ApplicationView::vm_reconstruct_wallpaper_cache`, one non-overlapped
pass: metadata phase, unmet-file loading, then eviction of every cache key
not in `active_thumbnails`. Returns (view list, cache). -/
def vm_reconstruct_wallpaper_cache (decode : String → Option Image)
    (resize : Image → Image) (cache : Cache) (ws : List Wallpaper) :
    List WallpaperView × Cache :=
  let b := buildViews cache 0 ws
  let r := loadLoop decode resize b.2.2 b.1 cache b.2.1
  (r.1, fun k => if k ∈ r.2.2 then r.2.1 k else none)

/-- A concrete decode collaborator for witnesses: one good file. -/
def decodeW : String → Option Image :=
  fun s => if s = "good.png" then some ⟨800, 600⟩ else none

/-- A concrete resize collaborator for witnesses, capping both dimensions. -/
def resizeW : Image → Image :=
  fun i => ⟨min i.width 512, min i.height 512⟩

theorem listSwap_length (l : List Wallpaper) (i j : Nat) :
    (listSwap l i j).length = l.length := by
  unfold listSwap
  cases hi : l[i]? <;> cases hj : l[j]? <;> simp

theorem listSwap_eq_set_set (l : List Wallpaper) (i j : Nat) (a b : Wallpaper)
    (hi : l[i]? = some a) (hj : l[j]? = some b) :
    listSwap l i j = (l.set i b).set j a := by
  unfold listSwap
  rw [hi, hj]

theorem listSwap_listSwap (l : List Wallpaper) (i j : Nat)
    (hi : i < l.length) (hj : j < l.length) (hne : i ≠ j) :
    listSwap (listSwap l i j) j i = l := by
  have hi' : l[i]? = some l[i] := List.getElem?_eq_getElem hi
  have hj' : l[j]? = some l[j] := List.getElem?_eq_getElem hj
  have hinner : listSwap l i j = (l.set i l[j]).set j l[i] :=
    listSwap_eq_set_set l i j l[i] l[j] hi' hj'
  have hj2 : (listSwap l i j)[j]? = some l[i] := by
    rw [hinner, List.getElem?_set]
    simp [hj]
  have hi2 : (listSwap l i j)[i]? = some l[j] := by
    rw [hinner, List.getElem?_set, if_neg (Ne.symm hne), List.getElem?_set]
    simp [hi]
  rw [listSwap_eq_set_set (listSwap l i j) j i l[i] l[j] hj2 hi2, hinner]
  apply List.ext_getElem?
  intro n
  by_cases hni : i = n
  · subst hni
    rw [List.getElem?_set]
    simp [hi, List.getElem?_eq_getElem hi]
  · rw [List.getElem?_set, if_neg hni]
    by_cases hnj : j = n
    · subst hnj
      rw [List.getElem?_set]
      simp [hj, List.getElem?_eq_getElem hj]
    · rw [List.getElem?_set, if_neg hnj, List.getElem?_set, if_neg hnj,
        List.getElem?_set, if_neg hni]

/-- C3 as literally stated is false: `MoveUp` at a valid index `i` of a
2-element list followed by `MoveDown` at the same index `i` does not restore
the original order (here `i = 1`: MoveUp swaps, MoveDown at the last index is
a no-op). -/
theorem c3_moveUp_moveDown_counterexample :
    ¬ (((update_wallpaper [wA, wB] 1 .MoveUp).bind fun r =>
          update_wallpaper r.1 1 .MoveDown).map Prod.fst = some [wA, wB]) := by
  decide

/-- C3 (amended): `MoveUp` at index 0 is a no-op, `MoveDown` at the last index
is a no-op, and for `0 < i < length`, `MoveUp` at `i` followed by `MoveDown`
at the element's new index `i - 1` restores the original order. -/
theorem c3_reorder_laws (ws : List Wallpaper) (i : Nat) :
    update_wallpaper ws 0 .MoveUp = some (ws, [ApplicationEvent.WallpapersUpdated]) ∧
    update_wallpaper ws (ws.length - 1) .MoveDown
      = some (ws, [ApplicationEvent.WallpapersUpdated]) ∧
    (0 < i → i < ws.length →
      ((update_wallpaper ws i .MoveUp).bind fun r =>
          update_wallpaper r.1 (i - 1) .MoveDown).map Prod.fst = some ws) := by
  refine ⟨?_, ?_, ?_⟩
  · simp [update_wallpaper]
  · have h : ¬ (ws.length - 1 + 1 < ws.length) := by omega
    simp [update_wallpaper, h]
  · intro hpos hlt
    have h1 : update_wallpaper ws i .MoveUp
        = some (listSwap ws i (i - 1), [ApplicationEvent.WallpapersUpdated]) := by
      simp [update_wallpaper, hpos, hlt]
    have hlen : (listSwap ws i (i - 1)).length = ws.length := listSwap_length ws i (i - 1)
    have h3 : i - 1 + 1 = i := by omega
    have h4 : update_wallpaper (listSwap ws i (i - 1)) (i - 1) .MoveDown
        = some (listSwap (listSwap ws i (i - 1)) (i - 1) i,
            [ApplicationEvent.WallpapersUpdated]) := by
      have h2 : i < (listSwap ws i (i - 1)).length := by omega
      simp [update_wallpaper, h3, h2]
    rw [h1, Option.some_bind, h4]
    have h5 := listSwap_listSwap ws i (i - 1) hlt (by omega) (by omega)
    simp [h5]

/-- Witness for `c3_reorder_laws` at a concrete 3-element list and `i = 1`. -/
theorem c3_reorder_laws_witness :
    ((update_wallpaper [wA, wB, wC] 1 .MoveUp).bind fun r =>
        update_wallpaper r.1 0 .MoveDown).map Prod.fst = some [wA, wB, wC] :=
  (c3_reorder_laws [wA, wB, wC] 1).2.2 (by decide) (by decide)

/-- C6: whenever `update_wallpaper` does not panic, it publishes exactly one
`WallpapersUpdated` event, no-op branches included. -/
theorem c6_single_event (ws : List Wallpaper) (index : Nat)
    (op : WallpaperListOperation) (l : List Wallpaper) (evs : List ApplicationEvent)
    (h : update_wallpaper ws index op = some (l, evs)) :
    evs = [ApplicationEvent.WallpapersUpdated] := by
  unfold update_wallpaper at h
  rw [Option.map_eq_some'] at h
  obtain ⟨a, -, ha⟩ := h
  cases ha
  rfl

/-- Witness for `c6_single_event`: `MoveUp` at the 0 boundary still publishes
the event. -/
theorem c6_single_event_witness :
    [ApplicationEvent.WallpapersUpdated] = [ApplicationEvent.WallpapersUpdated] :=
  c6_single_event [wA] 0 .MoveUp [wA] [ApplicationEvent.WallpapersUpdated] (by decide)

/-- C10: `MoveDown` never panics (any index), while `MoveUp` with
`0 < index` and `length ≤ index`, `Remove` with `length ≤ index`, and
`SetFitting` with `length ≤ index` all panic. -/
theorem c10_guard_asymmetry (ws : List Wallpaper) (index : Nat) :
    (update_wallpaper ws index .MoveDown).isSome = true ∧
    (0 < index → ws.length ≤ index → update_wallpaper ws index .MoveUp = none) ∧
    (ws.length ≤ index → update_wallpaper ws index .Remove = none) ∧
    (∀ f, ws.length ≤ index → update_wallpaper ws index (.SetFitting f) = none) := by
  refine ⟨?_, ?_, ?_, ?_⟩
  · unfold update_wallpaper
    by_cases h : index + 1 < ws.length <;> simp [h]
  · intro hpos hge
    have h : ¬ (index < ws.length) := by omega
    simp [update_wallpaper, hpos, h]
  · intro hge
    have h : ¬ (index < ws.length) := by omega
    simp [update_wallpaper, h]
  · intro f hge
    have h : ws[index]? = none := by
      simp [List.getElem?_eq_none_iff]
      omega
    simp [update_wallpaper, h]

/-- Witness for `c10_guard_asymmetry` at a concrete out-of-range index. -/
theorem c10_guard_asymmetry_witness :
    update_wallpaper [wA] 5 .MoveUp = none ∧
    update_wallpaper [wA] 5 .Remove = none ∧
    update_wallpaper [wA] 5 (.SetFitting .Tile) = none := by
  refine ⟨?_, ?_, ?_⟩
  · exact (c10_guard_asymmetry [wA] 5).2.1 (by decide) (by decide)
  · exact (c10_guard_asymmetry [wA] 5).2.2.1 (by decide)
  · exact (c10_guard_asymmetry [wA] 5).2.2.2 .Tile (by decide)

/-- C5 as stated is false: the first monitor's normalized bottom coordinate
is `(1080 + 1060) / 3200 = 0.66875`, not the claimed `0.6625`. -/
theorem c5_scenario_counterexample :
    ((vm_update_monitors ms5).1[0]?.map Rect4.w) = some (107 / 160) ∧
    (107 / 160 : ℚ) ≠ 53 / 80 := by
  norm_num [ms5, mon0, mon1, vm_update_monitors, monitorViewRect, leftAll, topAll,
    rightAll, bottomAll, divider, wholeSizeX, wholeSizeY, offsetX, offsetY,
    xpoints, ypoints, listMin, listMax, max_def, min_def]

/-- C5 (amended): the scenario's bounding box is left 0, top 0, right 3200,
bottom 1080, divider 3200, offset (0, 1060), and the first monitor's rect is
left-top (0, 0.33125), right-bottom (0.6, 0.66875). -/
theorem c5_scenario :
    leftAll ms5 = 0 ∧ topAll ms5 = 0 ∧ rightAll ms5 = 3200 ∧ bottomAll ms5 = 1080 ∧
    divider ms5 = 3200 ∧ offsetX ms5 = 0 ∧ offsetY ms5 = 1060 ∧
    (vm_update_monitors ms5).1[0]? = some ⟨0, 53 / 160, 3 / 5, 107 / 160⟩ := by
  norm_num [ms5, mon0, mon1, vm_update_monitors, monitorViewRect, leftAll, topAll,
    rightAll, bottomAll, divider, wholeSizeX, wholeSizeY, offsetX, offsetY,
    xpoints, ypoints, listMin, listMax, max_def, min_def]

/-- C7: after every handle owning a callback is dropped, a notify pass skips
that callback without error, still invokes every live registered subscriber,
and compacts the registry. -/
theorem c7_subscription_lifetime (subs : List Nat) (alive : Nat → Bool) (k : Nat)
    (hdead : alive k = false) :
    k ∉ (notifyPass alive subs).1 ∧
    (∀ j, alive j = true → (j ∈ (notifyPass alive subs).1 ↔ j ∈ subs)) ∧
    (k ∈ subs → (notifyPass alive subs).2 = subs.filter alive) := by
  refine ⟨?_, ?_, ?_⟩
  · simp [notifyPass, List.mem_filter, hdead]
  · intro j hj
    simp [notifyPass, List.mem_filter, hj]
  · intro hk
    have h : subs.any (fun s => !alive s) = true :=
      List.any_eq_true.mpr ⟨k, hk, by simp [hdead]⟩
    simp [notifyPass, h]

/-- Witness for `c7_subscription_lifetime`: registry `[0, 1]`, only callback 0
still owned. -/
theorem c7_subscription_lifetime_witness :
    1 ∉ (notifyPass (fun n => n == 0) [0, 1]).1 ∧
    ((0 : Nat) ∈ (notifyPass (fun n => n == 0) [0, 1]).1 ↔ (0 : Nat) ∈ [0, 1]) ∧
    (notifyPass (fun n => n == 0) [0, 1]).2 = List.filter (fun n => n == 0) [0, 1] := by
  have h := c7_subscription_lifetime [0, 1] (fun n => n == 0) 1 (by decide)
  exact ⟨h.1, h.2.1 0 (by decide), h.2.2 (by decide)⟩

/-- C8: the `MonitorsUpdated` handler yields an empty preview list and a
cleared selection on an empty monitor list (the early return precedes any
divider computation), and resets the selection to index 0 otherwise. -/
theorem c8_selection_reset (ms : List Monitor) :
    (ms = [] → vm_update_monitors ms = ([], none)) ∧
    (ms ≠ [] → (vm_update_monitors ms).2 = some 0) := by
  constructor
  · intro h
    subst h
    rfl
  · intro h
    have he : ms.isEmpty = false := by
      cases ms with
      | nil => exact absurd rfl h
      | cons a l => rfl
    simp [vm_update_monitors, he]

/-- Witness for `c8_selection_reset` on `[]` and a one-monitor list. -/
theorem c8_selection_reset_witness :
    vm_update_monitors [] = ([], none) ∧
    (vm_update_monitors [mon0]).2 = some 0 :=
  ⟨(c8_selection_reset []).1 rfl, (c8_selection_reset [mon0]).2 (by decide)⟩

theorem listMin_cons (a : Int) (l : List Int) (h : l ≠ []) :
    listMin (a :: l) = min a (listMin l) := by
  cases l with
  | nil => exact absurd rfl h
  | cons b r => rfl

theorem listMax_cons (a : Int) (l : List Int) (h : l ≠ []) :
    listMax (a :: l) = max a (listMax l) := by
  cases l with
  | nil => exact absurd rfl h
  | cons b r => rfl

theorem listMin_le_of_mem {x : Int} {l : List Int} (h : x ∈ l) : listMin l ≤ x := by
  induction l with
  | nil => cases h
  | cons a r ih =>
    cases r with
    | nil =>
      rw [List.mem_singleton] at h
      subst h
      exact le_refl _
    | cons b r2 =>
      rw [listMin_cons a _ (by simp)]
      rcases List.mem_cons.mp h with h1 | h2
      · subst h1
        exact min_le_left _ _
      · exact le_trans (min_le_right _ _) (ih h2)

theorem le_listMax_of_mem {x : Int} {l : List Int} (h : x ∈ l) : x ≤ listMax l := by
  induction l with
  | nil => cases h
  | cons a r ih =>
    cases r with
    | nil =>
      rw [List.mem_singleton] at h
      subst h
      exact le_refl _
    | cons b r2 =>
      rw [listMax_cons a _ (by simp)]
      rcases List.mem_cons.mp h with h1 | h2
      · subst h1
        exact le_max_left _ _
      · exact le_trans (ih h2) (le_max_right _ _)

theorem listMin_mem {l : List Int} (h : l ≠ []) : listMin l ∈ l := by
  induction l with
  | nil => exact absurd rfl h
  | cons a r ih =>
    cases r with
    | nil => simp [listMin]
    | cons b r2 =>
      rw [listMin_cons a _ (by simp)]
      rcases le_total a (listMin (b :: r2)) with h1 | h1
      · rw [min_eq_left h1]
        exact List.mem_cons_self a _
      · rw [min_eq_right h1]
        exact List.mem_cons_of_mem a (ih (by simp))

theorem xpoints_ne_nil {ms : List Monitor} (h : ms ≠ []) : xpoints ms ≠ [] := by
  cases ms with
  | nil => exact absurd rfl h
  | cons m r => simp [xpoints]

theorem ypoints_ne_nil {ms : List Monitor} (h : ms ≠ []) : ypoints ms ≠ [] := by
  cases ms with
  | nil => exact absurd rfl h
  | cons m r => simp [ypoints]

theorem posx_mem_xpoints {m : Monitor} {ms : List Monitor} (h : m ∈ ms) :
    m.position.x ∈ xpoints ms := by
  induction ms with
  | nil => cases h
  | cons a r ih =>
    rcases List.mem_cons.mp h with h1 | h2
    · subst h1
      simp [xpoints]
    · simp only [xpoints, List.mem_cons]
      exact Or.inr (Or.inr (ih h2))

theorem cornerx_mem_xpoints {m : Monitor} {ms : List Monitor} (h : m ∈ ms) :
    m.position.x + m.size.x ∈ xpoints ms := by
  induction ms with
  | nil => cases h
  | cons a r ih =>
    rcases List.mem_cons.mp h with h1 | h2
    · subst h1
      simp [xpoints]
    · simp only [xpoints, List.mem_cons]
      exact Or.inr (Or.inr (ih h2))

theorem posy_mem_ypoints {m : Monitor} {ms : List Monitor} (h : m ∈ ms) :
    m.position.y ∈ ypoints ms := by
  induction ms with
  | nil => cases h
  | cons a r ih =>
    rcases List.mem_cons.mp h with h1 | h2
    · subst h1
      simp [ypoints]
    · simp only [ypoints, List.mem_cons]
      exact Or.inr (Or.inr (ih h2))

theorem cornery_mem_ypoints {m : Monitor} {ms : List Monitor} (h : m ∈ ms) :
    m.position.y + m.size.y ∈ ypoints ms := by
  induction ms with
  | nil => cases h
  | cons a r ih =>
    rcases List.mem_cons.mp h with h1 | h2
    · subst h1
      simp [ypoints]
    · simp only [ypoints, List.mem_cons]
      exact Or.inr (Or.inr (ih h2))

theorem mem_xpoints {v : Int} {ms : List Monitor} (h : v ∈ xpoints ms) :
    ∃ m ∈ ms, v = m.position.x ∨ v = m.position.x + m.size.x := by
  induction ms with
  | nil => cases h
  | cons a r ih =>
    simp only [xpoints, List.mem_cons] at h
    rcases h with h | h | h
    · exact ⟨a, List.mem_cons_self a r, Or.inl h⟩
    · exact ⟨a, List.mem_cons_self a r, Or.inr h⟩
    · obtain ⟨m, hm, hv⟩ := ih h
      exact ⟨m, List.mem_cons_of_mem a hm, hv⟩

theorem mem_ypoints {v : Int} {ms : List Monitor} (h : v ∈ ypoints ms) :
    ∃ m ∈ ms, v = m.position.y ∨ v = m.position.y + m.size.y := by
  induction ms with
  | nil => cases h
  | cons a r ih =>
    simp only [ypoints, List.mem_cons] at h
    rcases h with h | h | h
    · exact ⟨a, List.mem_cons_self a r, Or.inl h⟩
    · exact ⟨a, List.mem_cons_self a r, Or.inr h⟩
    · obtain ⟨m, hm, hv⟩ := ih h
      exact ⟨m, List.mem_cons_of_mem a hm, hv⟩

theorem leftAll_eq_spec {ms : List Monitor} (hne : ms ≠ [])
    (hsz : ∀ m ∈ ms, 0 ≤ m.size.x) : leftAll ms = specLeft ms := by
  induction ms with
  | nil => exact absurd rfl hne
  | cons m rest ih =>
    cases rest with
    | nil =>
      have h0 : 0 ≤ m.size.x := hsz m (List.mem_cons_self m [])
      simp only [leftAll, specLeft, xpoints, listMin, List.map]
      omega
    | cons m2 rest2 =>
      have hxne : xpoints (m2 :: rest2) ≠ [] := xpoints_ne_nil (by simp)
      have hmne : ((m2 :: rest2).map fun m => m.position.x) ≠ [] := by simp
      have ihh := ih (by simp) fun x hx => hsz x (List.mem_cons_of_mem m hx)
      simp only [leftAll, specLeft] at ihh ⊢
      rw [show xpoints (m :: m2 :: rest2)
          = m.position.x :: (m.position.x + m.size.x) :: xpoints (m2 :: rest2) from rfl]
      rw [listMin_cons _ _ (by simp), listMin_cons _ _ hxne]
      rw [List.map_cons, listMin_cons _ _ hmne, ihh]
      have h0 : 0 ≤ m.size.x := hsz m (List.mem_cons_self m _)
      omega

theorem topAll_eq_spec {ms : List Monitor} (hne : ms ≠ [])
    (hsz : ∀ m ∈ ms, 0 ≤ m.size.y) : topAll ms = specTop ms := by
  induction ms with
  | nil => exact absurd rfl hne
  | cons m rest ih =>
    cases rest with
    | nil =>
      have h0 : 0 ≤ m.size.y := hsz m (List.mem_cons_self m [])
      simp only [topAll, specTop, ypoints, listMin, List.map]
      omega
    | cons m2 rest2 =>
      have hxne : ypoints (m2 :: rest2) ≠ [] := ypoints_ne_nil (by simp)
      have hmne : ((m2 :: rest2).map fun m => m.position.y) ≠ [] := by simp
      have ihh := ih (by simp) fun x hx => hsz x (List.mem_cons_of_mem m hx)
      simp only [topAll, specTop] at ihh ⊢
      rw [show ypoints (m :: m2 :: rest2)
          = m.position.y :: (m.position.y + m.size.y) :: ypoints (m2 :: rest2) from rfl]
      rw [listMin_cons _ _ (by simp), listMin_cons _ _ hxne]
      rw [List.map_cons, listMin_cons _ _ hmne, ihh]
      have h0 : 0 ≤ m.size.y := hsz m (List.mem_cons_self m _)
      omega

theorem rightAll_eq_spec {ms : List Monitor} (hne : ms ≠ [])
    (hsz : ∀ m ∈ ms, 0 ≤ m.size.x) : rightAll ms = specRight ms := by
  induction ms with
  | nil => exact absurd rfl hne
  | cons m rest ih =>
    cases rest with
    | nil =>
      have h0 : 0 ≤ m.size.x := hsz m (List.mem_cons_self m [])
      simp only [rightAll, specRight, xpoints, listMax, List.map]
      omega
    | cons m2 rest2 =>
      have hxne : xpoints (m2 :: rest2) ≠ [] := xpoints_ne_nil (by simp)
      have hmne : ((m2 :: rest2).map fun m => m.position.x + m.size.x) ≠ [] := by simp
      have ihh := ih (by simp) fun x hx => hsz x (List.mem_cons_of_mem m hx)
      simp only [rightAll, specRight] at ihh ⊢
      rw [show xpoints (m :: m2 :: rest2)
          = m.position.x :: (m.position.x + m.size.x) :: xpoints (m2 :: rest2) from rfl]
      rw [listMax_cons _ _ (by simp), listMax_cons _ _ hxne]
      rw [List.map_cons, listMax_cons _ _ hmne, ihh]
      have h0 : 0 ≤ m.size.x := hsz m (List.mem_cons_self m _)
      omega

theorem bottomAll_eq_spec {ms : List Monitor} (hne : ms ≠ [])
    (hsz : ∀ m ∈ ms, 0 ≤ m.size.y) : bottomAll ms = specBottom ms := by
  induction ms with
  | nil => exact absurd rfl hne
  | cons m rest ih =>
    cases rest with
    | nil =>
      have h0 : 0 ≤ m.size.y := hsz m (List.mem_cons_self m [])
      simp only [bottomAll, specBottom, ypoints, listMax, List.map]
      omega
    | cons m2 rest2 =>
      have hxne : ypoints (m2 :: rest2) ≠ [] := ypoints_ne_nil (by simp)
      have hmne : ((m2 :: rest2).map fun m => m.position.y + m.size.y) ≠ [] := by simp
      have ihh := ih (by simp) fun x hx => hsz x (List.mem_cons_of_mem m hx)
      simp only [bottomAll, specBottom] at ihh ⊢
      rw [show ypoints (m :: m2 :: rest2)
          = m.position.y :: (m.position.y + m.size.y) :: ypoints (m2 :: rest2) from rfl]
      rw [listMax_cons _ _ (by simp), listMax_cons _ _ hxne]
      rw [List.map_cons, listMax_cons _ _ hmne, ihh]
      have h0 : 0 ≤ m.size.y := hsz m (List.mem_cons_self m _)
      omega

/-- C1: on any non-empty monitor list, the layout normalization computes the
union bounding box of the claim (min/max of positions and far corners), the
claimed divider and offset, and emits, in input order, exactly the rects of
the claim's formulas. -/
theorem c1_layout_normalization (ms : List Monitor) (hne : ms ≠ [])
    (hsz : ∀ m ∈ ms, 0 ≤ m.size.x ∧ 0 ≤ m.size.y) :
    leftAll ms = specLeft ms ∧ topAll ms = specTop ms ∧
    rightAll ms = specRight ms ∧ bottomAll ms = specBottom ms ∧
    divider ms = specDivider ms ∧
    offsetX ms = specOffsetX ms ∧ offsetY ms = specOffsetY ms ∧
    (vm_update_monitors ms).1 = specPreviewRects ms := by
  have hl := leftAll_eq_spec hne fun m hm => (hsz m hm).1
  have ht := topAll_eq_spec hne fun m hm => (hsz m hm).2
  have hr := rightAll_eq_spec hne fun m hm => (hsz m hm).1
  have hb := bottomAll_eq_spec hne fun m hm => (hsz m hm).2
  have hdiv : divider ms = specDivider ms := by
    simp only [divider, specDivider, wholeSizeX, wholeSizeY, hl, ht, hr, hb]
  have hox : offsetX ms = specOffsetX ms := by
    simp only [offsetX, specOffsetX, wholeSizeX, hl, hr, hdiv]
  have hoy : offsetY ms = specOffsetY ms := by
    simp only [offsetY, specOffsetY, wholeSizeY, ht, hb, hdiv]
  refine ⟨hl, ht, hr, hb, hdiv, hox, hoy, ?_⟩
  have he : ms.isEmpty = false := by
    cases ms with
    | nil => exact absurd rfl hne
    | cons a l => rfl
  simp only [vm_update_monitors, he, Bool.false_eq_true, if_false, specPreviewRects]
  apply List.map_congr_left
  intro m _
  simp only [monitorViewRect, hl, ht, hdiv, hox, hoy]

/-- Witness for `c1_layout_normalization` on the two-monitor scenario. -/
theorem c1_layout_normalization_witness :
    (vm_update_monitors ms5).1 = specPreviewRects ms5 :=
  (c1_layout_normalization ms5 (by simp [ms5]) (by decide)).2.2.2.2.2.2.2

theorem divider_pos {ms : List Monitor} (hne : ms ≠ [])
    (hsz : ∀ m ∈ ms, 0 < m.size.x ∧ 0 < m.size.y) : 0 < divider ms := by
  obtain ⟨m0, hm0⟩ : ∃ m, m ∈ ms := by
    cases ms with
    | nil => exact absurd rfl hne
    | cons a l => exact ⟨a, List.mem_cons_self a l⟩
  have h1 : leftAll ms ≤ m0.position.x := listMin_le_of_mem (posx_mem_xpoints hm0)
  have h2 : m0.position.x + m0.size.x ≤ rightAll ms :=
    le_listMax_of_mem (cornerx_mem_xpoints hm0)
  have h3 : (0 : Int) < m0.size.x := (hsz m0 hm0).1
  have hInt : (0 : Int) < rightAll ms - leftAll ms := by omega
  have hwx : (0 : ℚ) < wholeSizeX ms := by
    unfold wholeSizeX
    have : ((0 : Int) : ℚ) < ((rightAll ms - leftAll ms : Int) : ℚ) := by
      exact_mod_cast hInt
    push_cast at this
    linarith
  exact lt_of_lt_of_le hwx (le_max_left _ _)

theorem rect_bounds {ms : List Monitor} {m : Monitor} (hne : ms ≠ [])
    (hsz : ∀ m2 ∈ ms, 0 < m2.size.x ∧ 0 < m2.size.y) (hm : m ∈ ms) :
    0 ≤ (monitorViewRect m (leftAll ms) (topAll ms) (offsetX ms) (offsetY ms)
          (divider ms)).x ∧
    (monitorViewRect m (leftAll ms) (topAll ms) (offsetX ms) (offsetY ms)
      (divider ms)).x ≤ 1 ∧
    0 ≤ (monitorViewRect m (leftAll ms) (topAll ms) (offsetX ms) (offsetY ms)
          (divider ms)).y ∧
    (monitorViewRect m (leftAll ms) (topAll ms) (offsetX ms) (offsetY ms)
      (divider ms)).y ≤ 1 ∧
    0 ≤ (monitorViewRect m (leftAll ms) (topAll ms) (offsetX ms) (offsetY ms)
          (divider ms)).z ∧
    (monitorViewRect m (leftAll ms) (topAll ms) (offsetX ms) (offsetY ms)
      (divider ms)).z ≤ 1 ∧
    0 ≤ (monitorViewRect m (leftAll ms) (topAll ms) (offsetX ms) (offsetY ms)
          (divider ms)).w ∧
    (monitorViewRect m (leftAll ms) (topAll ms) (offsetX ms) (offsetY ms)
      (divider ms)).w ≤ 1 := by
  have hdpos : 0 < divider ms := divider_pos hne hsz
  have hxle : ((leftAll ms : Int) : ℚ) ≤ ((m.position.x : Int) : ℚ) := by
    exact_mod_cast listMin_le_of_mem (posx_mem_xpoints hm)
  have hxge : ((m.position.x : Int) : ℚ) + ((m.size.x : Int) : ℚ)
      ≤ ((rightAll ms : Int) : ℚ) := by
    exact_mod_cast le_listMax_of_mem (cornerx_mem_xpoints hm)
  have hyle : ((topAll ms : Int) : ℚ) ≤ ((m.position.y : Int) : ℚ) := by
    exact_mod_cast listMin_le_of_mem (posy_mem_ypoints hm)
  have hyge : ((m.position.y : Int) : ℚ) + ((m.size.y : Int) : ℚ)
      ≤ ((bottomAll ms : Int) : ℚ) := by
    exact_mod_cast le_listMax_of_mem (cornery_mem_ypoints hm)
  have hsx : (0 : ℚ) < ((m.size.x : Int) : ℚ) := by exact_mod_cast (hsz m hm).1
  have hsy : (0 : ℚ) < ((m.size.y : Int) : ℚ) := by exact_mod_cast (hsz m hm).2
  have hwx : wholeSizeX ms ≤ divider ms := le_max_left _ _
  have hwy : wholeSizeY ms ≤ divider ms := le_max_right _ _
  have hwxd : ((rightAll ms : Int) : ℚ) - ((leftAll ms : Int) : ℚ) = wholeSizeX ms := rfl
  have hwyd : ((bottomAll ms : Int) : ℚ) - ((topAll ms : Int) : ℚ) = wholeSizeY ms := rfl
  have hox0 : 0 ≤ offsetX ms := by
    unfold offsetX
    linarith
  have hoy0 : 0 ≤ offsetY ms := by
    unfold offsetY
    linarith
  have hoxb : offsetX ms ≤ divider ms - wholeSizeX ms := by
    unfold offsetX
    linarith
  have hoyb : offsetY ms ≤ divider ms - wholeSizeY ms := by
    unfold offsetY
    linarith
  have hnx0 : 0 ≤ ((m.position.x : ℚ) - (leftAll ms : ℚ) + offsetX ms) / divider ms :=
    div_nonneg (by linarith) hdpos.le
  have hny0 : 0 ≤ ((m.position.y : ℚ) - (topAll ms : ℚ) + offsetY ms) / divider ms :=
    div_nonneg (by linarith) hdpos.le
  have hnsx0 : 0 ≤ (m.size.x : ℚ) / divider ms := div_nonneg hsx.le hdpos.le
  have hnsy0 : 0 ≤ (m.size.y : ℚ) / divider ms := div_nonneg hsy.le hdpos.le
  have hz1 : ((m.position.x : ℚ) - (leftAll ms : ℚ) + offsetX ms) / divider ms
      + (m.size.x : ℚ) / divider ms ≤ 1 := by
    rw [div_add_div_same, div_le_one hdpos]
    linarith
  have hw1 : ((m.position.y : ℚ) - (topAll ms : ℚ) + offsetY ms) / divider ms
      + (m.size.y : ℚ) / divider ms ≤ 1 := by
    rw [div_add_div_same, div_le_one hdpos]
    linarith
  simp only [monitorViewRect]
  refine ⟨hnx0, by linarith, hny0, by linarith, by linarith, hz1, by linarith, hw1⟩

/-- C4: on a non-empty monitor list, every emitted preview rect has both
corners within [0,1]x[0,1], and on each axis whose bounding-box extent equals
the divider some monitor's rect touches an edge there. -/
theorem c4_containment (ms : List Monitor) (hne : ms ≠ [])
    (hsz : ∀ m ∈ ms, 0 < m.size.x ∧ 0 < m.size.y) :
    (∀ r ∈ (vm_update_monitors ms).1,
      0 ≤ r.x ∧ r.x ≤ 1 ∧ 0 ≤ r.y ∧ r.y ≤ 1 ∧
      0 ≤ r.z ∧ r.z ≤ 1 ∧ 0 ≤ r.w ∧ r.w ≤ 1) ∧
    (divider ms = wholeSizeX ms →
      ∃ r ∈ (vm_update_monitors ms).1, r.x = 0 ∨ r.z = 1) ∧
    (divider ms = wholeSizeY ms →
      ∃ r ∈ (vm_update_monitors ms).1, r.y = 0 ∨ r.w = 1) := by
  have he : ms.isEmpty = false := by
    cases ms with
    | nil => exact absurd rfl hne
    | cons a l => rfl
  refine ⟨?_, ?_, ?_⟩
  · intro r hr
    simp only [vm_update_monitors, he, Bool.false_eq_true, if_false] at hr
    obtain ⟨m, hm, rfl⟩ := List.mem_map.mp hr
    exact rect_bounds hne hsz hm
  · intro hdx
    have hmem : listMin (xpoints ms) ∈ xpoints ms := listMin_mem (xpoints_ne_nil hne)
    obtain ⟨m, hm, hv⟩ := mem_xpoints hmem
    have hleft : leftAll ms = m.position.x := by
      rcases hv with h | h
      · exact h
      · exfalso
        have h1 : leftAll ms ≤ m.position.x := listMin_le_of_mem (posx_mem_xpoints hm)
        have h2 : (0 : Int) < m.size.x := (hsz m hm).1
        have h3 : leftAll ms = m.position.x + m.size.x := h
        omega
    have hox : offsetX ms = 0 := by
      rw [offsetX, hdx, sub_self, zero_div]
    refine ⟨monitorViewRect m (leftAll ms) (topAll ms) (offsetX ms) (offsetY ms)
        (divider ms), ?_, Or.inl ?_⟩
    · simp only [vm_update_monitors, he, Bool.false_eq_true, if_false]
      exact List.mem_map_of_mem _ hm
    · simp only [monitorViewRect, hox, hleft]
      rw [add_zero, sub_self, zero_div]
  · intro hdy
    have hmem : listMin (ypoints ms) ∈ ypoints ms := listMin_mem (ypoints_ne_nil hne)
    obtain ⟨m, hm, hv⟩ := mem_ypoints hmem
    have htop : topAll ms = m.position.y := by
      rcases hv with h | h
      · exact h
      · exfalso
        have h1 : topAll ms ≤ m.position.y := listMin_le_of_mem (posy_mem_ypoints hm)
        have h2 : (0 : Int) < m.size.y := (hsz m hm).2
        have h3 : topAll ms = m.position.y + m.size.y := h
        omega
    have hoy : offsetY ms = 0 := by
      rw [offsetY, hdy, sub_self, zero_div]
    refine ⟨monitorViewRect m (leftAll ms) (topAll ms) (offsetX ms) (offsetY ms)
        (divider ms), ?_, Or.inl ?_⟩
    · simp only [vm_update_monitors, he, Bool.false_eq_true, if_false]
      exact List.mem_map_of_mem _ hm
    · simp only [monitorViewRect, hoy, htop]
      rw [add_zero, sub_self, zero_div]

/-- Witness for `c4_containment`: the single-monitor layout's rect
(0, 7/32, 1, 25/32) is contained in the unit square. -/
theorem c4_containment_witness :
    0 ≤ rect0.x ∧ rect0.x ≤ 1 ∧ 0 ≤ rect0.y ∧ rect0.y ≤ 1 ∧
    0 ≤ rect0.z ∧ rect0.z ≤ 1 ∧ 0 ≤ rect0.w ∧ rect0.w ≤ 1 :=
  (c4_containment [mon0] (by simp) (by decide)).1 rect0
    (by
      norm_num [vm_update_monitors, monitorViewRect, rect0, mon0, leftAll, topAll,
        rightAll, bottomAll, divider, wholeSizeX, wholeSizeY, offsetX, offsetY,
        xpoints, ypoints, listMin, listMax, max_def, min_def])

theorem buildViews_map_uuid (cache : Cache) (n : Nat) (ws : List Wallpaper) :
    (buildViews cache n ws).1.map (·.uuid) = ws.map (·.uuid) := by
  induction ws generalizing n with
  | nil => rfl
  | cons w rest ih =>
    simp only [buildViews]
    cases hc : cache w.uuid <;> simp [wallpaperView, ih]

theorem buildViews_active_mem (cache : Cache) (n : Nat) (ws : List Wallpaper)
    (k : Nat) :
    k ∈ (buildViews cache n ws).2.1 ↔
      ∃ w ∈ ws, w.uuid = k ∧ (cache k).isSome = true := by
  induction ws generalizing n with
  | nil => simp [buildViews]
  | cons w rest ih =>
    simp only [buildViews]
    cases hc : cache w.uuid with
    | none =>
      simp only []
      rw [ih (n + 1)]
      constructor
      · rintro ⟨w2, hw2, hu, hs⟩
        exact ⟨w2, List.mem_cons_of_mem w hw2, hu, hs⟩
      · rintro ⟨w2, hw2, hu, hs⟩
        rcases List.mem_cons.mp hw2 with h | h
        · exfalso
          subst h
          rw [← hu, hc] at hs
          simp at hs
        · exact ⟨w2, h, hu, hs⟩
    | some e =>
      simp only [List.mem_cons]
      rw [ih (n + 1)]
      constructor
      · rintro (h | ⟨w2, hw2, hu, hs⟩)
        · subst h
          exact ⟨w, Or.inl rfl, rfl, by rw [hc]; rfl⟩
        · exact ⟨w2, Or.inr hw2, hu, hs⟩
      · rintro ⟨w2, hw2, hu, hs⟩
        rcases hw2 with h | h
        · subst h
          exact Or.inl hu.symm
        · exact Or.inr ⟨w2, h, hu, hs⟩

theorem buildViews_unmet_sound (cache : Cache) (n : Nat) (ws : List Wallpaper)
    {i : Nat} {f : String} (h : (i, f) ∈ (buildViews cache n ws).2.2) :
    ∃ j w, ws[j]? = some w ∧ i = n + j ∧ f = w.filename ∧ cache w.uuid = none := by
  induction ws generalizing n with
  | nil => simp [buildViews] at h
  | cons w rest ih =>
    simp only [buildViews] at h
    cases hc : cache w.uuid with
    | none =>
      rw [hc] at h
      simp only [List.mem_cons] at h
      rcases h with h | h
      · rw [Prod.mk.injEq] at h
        exact ⟨0, w, List.getElem?_cons_zero, by omega, h.2, hc⟩
      · obtain ⟨j, w2, hj, hi, hf, hcn⟩ := ih (n + 1) h
        exact ⟨j + 1, w2, by rw [List.getElem?_cons_succ]; exact hj, by omega, hf, hcn⟩
    | some e =>
      rw [hc] at h
      obtain ⟨j, w2, hj, hi, hf, hcn⟩ := ih (n + 1) h
      exact ⟨j + 1, w2, by rw [List.getElem?_cons_succ]; exact hj, by omega, hf, hcn⟩

theorem buildViews_unmet_complete (cache : Cache) (ws : List Wallpaper)
    {j : Nat} {w : Wallpaper} (hj : ws[j]? = some w) (hc : cache w.uuid = none) :
    ∀ n, (n + j, w.filename) ∈ (buildViews cache n ws).2.2 := by
  induction ws generalizing j with
  | nil => simp at hj
  | cons w2 rest ih =>
    intro n
    cases j with
    | zero =>
      rw [List.getElem?_cons_zero, Option.some_inj] at hj
      subst hj
      simp only [buildViews]
      rw [hc]
      simp
    | succ j2 =>
      rw [List.getElem?_cons_succ] at hj
      have hmem := ih hj (n + 1)
      have harith : n + (j2 + 1) = n + 1 + j2 := by omega
      simp only [buildViews]
      cases hcc : cache w2.uuid with
      | none =>
        simp only [List.mem_cons]
        right
        rw [harith]
        exact hmem
      | some e =>
        simp only []
        rw [harith]
        exact hmem

theorem uuid_getD_congr {l1 l2 : List WallpaperView}
    (h : l1.map (·.uuid) = l2.map (·.uuid)) (i : Nat) :
    (l1.getD i default).uuid = (l2.getD i default).uuid := by
  have h2 : Option.map (·.uuid) l1[i]? = Option.map (·.uuid) l2[i]? := by
    rw [← List.getElem?_map, ← List.getElem?_map, h]
  rw [List.getD_eq_getElem?_getD, List.getD_eq_getElem?_getD]
  cases h1 : l1[i]? <;> cases h3 : l2[i]? <;> rw [h1, h3] at h2 <;>
    simp_all

theorem uuidAt_of_getElem? {views : List WallpaperView} {ws : List Wallpaper}
    (hmap : views.map (·.uuid) = ws.map (·.uuid)) {j : Nat} {w : Wallpaper}
    (hj : ws[j]? = some w) : (views.getD j default).uuid = w.uuid := by
  have h2 : Option.map (·.uuid) views[j]? = some w.uuid := by
    rw [← List.getElem?_map, hmap, List.getElem?_map, hj]
    rfl
  rw [List.getD_eq_getElem?_getD]
  cases hv : views[j]? with
  | none =>
    rw [hv] at h2
    simp at h2
  | some v =>
    rw [hv] at h2
    simp at h2
    simpa using h2

theorem setViewSize_map_uuid (views : List WallpaperView) (i : Nat) (sz : V2 Nat) :
    (setViewSize views i sz).map (·.uuid) = views.map (·.uuid) := by
  unfold setViewSize
  cases hv : views[i]? with
  | none => rfl
  | some v =>
    have hlt : i < views.length := by
      by_contra hge
      rw [List.getElem?_eq_none_iff.mpr (by omega)] at hv
      cases hv
    apply List.ext_getElem?
    intro nn
    rw [List.getElem?_map, List.getElem?_map, List.getElem?_set]
    by_cases hni : i = nn
    · subst hni
      simp [hlt, hv]
    · simp [hni]

theorem cacheInsert_isSome (c : Cache) (id k : Nat) (e : CacheEntry) :
    ((cacheInsert c id e) k).isSome = true ↔ k = id ∨ (c k).isSome = true := by
  unfold cacheInsert
  by_cases h : k = id <;> simp [h]

theorem loadLoop_spec (decode : String → Option Image) (resize : Image → Image)
    (unmet : List (Nat × String)) :
    ∀ (views : List WallpaperView) (cache : Cache) (act : List Nat),
      (loadLoop decode resize unmet views cache act).1.map (·.uuid)
        = views.map (·.uuid) ∧
      (∀ k, k ∈ (loadLoop decode resize unmet views cache act).2.2 ↔
        k ∈ act ∨ ∃ p ∈ unmet, (views.getD p.1 default).uuid = k) ∧
      (∀ k, ((loadLoop decode resize unmet views cache act).2.1 k).isSome = true ↔
        (cache k).isSome = true ∨
          ∃ p ∈ unmet, (views.getD p.1 default).uuid = k) := by
  induction unmet with
  | nil =>
    intro views cache act
    simp [loadLoop]
  | cons p rest ih =>
    intro views cache act
    obtain ⟨index, filename⟩ := p
    simp only [loadLoop]
    obtain ⟨ih1, ih2, ih3⟩ :=
      ih (setViewSize views index (loadThumb decode resize filename).2)
        (cacheInsert cache (views.getD index default).uuid
          ⟨(loadThumb decode resize filename).1, (loadThumb decode resize filename).2⟩)
        ((views.getD index default).uuid :: act)
    have hpres := setViewSize_map_uuid views index (loadThumb decode resize filename).2
    have hcong : ∀ q : Nat × String,
        ((setViewSize views index (loadThumb decode resize filename).2).getD q.1
          default).uuid = (views.getD q.1 default).uuid :=
      fun q => uuid_getD_congr hpres q.1
    refine ⟨by rw [ih1, hpres], ?_, ?_⟩
    · intro k
      rw [ih2 k]
      simp only [List.mem_cons]
      constructor
      · rintro ((h | h) | ⟨q, hq, hu⟩)
        · exact Or.inr ⟨(index, filename), Or.inl rfl, h.symm⟩
        · exact Or.inl h
        · rw [hcong q] at hu
          exact Or.inr ⟨q, Or.inr hq, hu⟩
      · rintro (h | ⟨q, hq, hu⟩)
        · exact Or.inl (Or.inr h)
        · rcases hq with hq | hq
          · subst hq
            exact Or.inl (Or.inl hu.symm)
          · rw [← hcong q] at hu
            exact Or.inr ⟨q, hq, hu⟩
    · intro k
      rw [ih3 k, cacheInsert_isSome]
      simp only [List.mem_cons]
      constructor
      · rintro ((h | h) | ⟨q, hq, hu⟩)
        · exact Or.inr ⟨(index, filename), Or.inl rfl, h.symm⟩
        · exact Or.inl h
        · rw [hcong q] at hu
          exact Or.inr ⟨q, Or.inr hq, hu⟩
      · rintro (h | ⟨q, hq, hu⟩)
        · exact Or.inl (Or.inr h)
        · rcases hq with hq | hq
          · subst hq
            exact Or.inl (Or.inl hu.symm)
          · rw [← hcong q] at hu
            exact Or.inr ⟨q, hq, hu⟩

theorem reconstruct_active_iff (decode : String → Option Image)
    (resize : Image → Image) (cache : Cache) (ws : List Wallpaper) (k : Nat) :
    k ∈ (loadLoop decode resize (buildViews cache 0 ws).2.2
          (buildViews cache 0 ws).1 cache (buildViews cache 0 ws).2.1).2.2 ↔
      k ∈ ws.map (·.uuid) := by
  obtain ⟨-, l2, -⟩ := loadLoop_spec decode resize (buildViews cache 0 ws).2.2
    (buildViews cache 0 ws).1 cache (buildViews cache 0 ws).2.1
  rw [l2 k]
  constructor
  · rintro (hact | ⟨q, hq, hu⟩)
    · obtain ⟨w, hw, huid, -⟩ := (buildViews_active_mem cache 0 ws k).mp hact
      exact huid ▸ List.mem_map_of_mem _ hw
    · obtain ⟨j, w, hj, hij, -, -⟩ := buildViews_unmet_sound cache 0 ws hq
      have huat : ((buildViews cache 0 ws).1.getD q.1 default).uuid = w.uuid := by
        rw [show q.1 = j from by omega]
        exact uuidAt_of_getElem? (buildViews_map_uuid cache 0 ws) hj
      rw [huat] at hu
      exact hu ▸ List.mem_map_of_mem _ (List.mem_iff_getElem?.mpr ⟨j, hj⟩)
  · intro hk
    obtain ⟨w, hw, huid⟩ := List.mem_map.mp hk
    cases hc : cache k with
    | some e =>
      exact Or.inl ((buildViews_active_mem cache 0 ws k).mpr
        ⟨w, hw, huid, by rw [hc]; rfl⟩)
    | none =>
      obtain ⟨j, hj⟩ := List.mem_iff_getElem?.mp hw
      have hcw : cache w.uuid = none := by rw [huid, hc]
      have hmem := buildViews_unmet_complete cache ws hj hcw 0
      refine Or.inr ⟨(0 + j, w.filename), hmem, ?_⟩
      rw [show (0 + j, w.filename).1 = j from by omega]
      rw [uuidAt_of_getElem? (buildViews_map_uuid cache 0 ws) hj]
      exact huid

theorem reconstruct_active_isSome (decode : String → Option Image)
    (resize : Image → Image) (cache : Cache) (ws : List Wallpaper) (k : Nat)
    (hk : k ∈ (loadLoop decode resize (buildViews cache 0 ws).2.2
          (buildViews cache 0 ws).1 cache (buildViews cache 0 ws).2.1).2.2) :
    ((loadLoop decode resize (buildViews cache 0 ws).2.2
      (buildViews cache 0 ws).1 cache (buildViews cache 0 ws).2.1).2.1 k).isSome
      = true := by
  obtain ⟨-, l2, l3⟩ := loadLoop_spec decode resize (buildViews cache 0 ws).2.2
    (buildViews cache 0 ws).1 cache (buildViews cache 0 ws).2.1
  rw [l3 k]
  rcases (l2 k).mp hk with hact | hun
  · obtain ⟨-, -, -, hs⟩ := (buildViews_active_mem cache 0 ws k).mp hact
    exact Or.inl hs
  · exact Or.inr hun

theorem reconstruct_key_set (decode : String → Option Image)
    (resize : Image → Image) (cache : Cache) (ws : List Wallpaper) (k : Nat) :
    (((vm_reconstruct_wallpaper_cache decode resize cache ws).2) k).isSome = true ↔
      k ∈ ws.map (·.uuid) := by
  unfold vm_reconstruct_wallpaper_cache
  simp only
  by_cases hk : k ∈ (loadLoop decode resize (buildViews cache 0 ws).2.2
      (buildViews cache 0 ws).1 cache (buildViews cache 0 ws).2.1).2.2
  · rw [if_pos hk]
    exact ⟨fun _ => (reconstruct_active_iff decode resize cache ws k).mp hk,
      fun _ => reconstruct_active_isSome decode resize cache ws k hk⟩
  · rw [if_neg hk]
    simp only [Option.isSome_none, Bool.false_eq_true, false_iff]
    intro hmem
    exact hk ((reconstruct_active_iff decode resize cache ws k).mpr hmem)

/-- C2: after one non-overlapped reconciliation pass over a wallpaper
snapshot, the cache's key set equals exactly the snapshot's id set, for every
decode outcome (a decode failure still yields an entry). -/
theorem c2_cache_reconciliation (decode : String → Option Image)
    (resize : Image → Image) (cache : Cache) (ws : List Wallpaper) (k : Nat) :
    (((vm_reconstruct_wallpaper_cache decode resize cache ws).2) k).isSome = true ↔
      k ∈ ws.map (·.uuid) :=
  reconstruct_key_set decode resize cache ws k

/-- C9: a decode failure substitutes the blank 128x128 placeholder with
original size (0,0); a decode success records the original size and stores a
square thumbnail of side `min(width, height)` of the resized image (at most
512 whenever the external resize collaborator respects its 512 cap); and a
failing file never blocks the batch: every snapshot id still receives a cache
entry. -/
theorem c9_thumbnail_pipeline (decode : String → Option Image)
    (resize : Image → Image) (filename : String)
    (hres : ∀ i, (resize i).width ≤ 512 ∧ (resize i).height ≤ 512) :
    (decode filename = none →
      loadThumb decode resize filename = (⟨128, 128⟩, ⟨0, 0⟩)) ∧
    (∀ i, decode filename = some i →
      (loadThumb decode resize filename).1.width
          = min (resize i).width (resize i).height ∧
      (loadThumb decode resize filename).1.height
          = (loadThumb decode resize filename).1.width ∧
      (loadThumb decode resize filename).1.width ≤ 512 ∧
      (loadThumb decode resize filename).2 = ⟨i.width, i.height⟩) ∧
    (∀ (cache : Cache) (ws : List Wallpaper) (w : Wallpaper), w ∈ ws →
      (((vm_reconstruct_wallpaper_cache decode resize cache ws).2) w.uuid).isSome
        = true) := by
  refine ⟨?_, ?_, ?_⟩
  · intro h
    simp [loadThumb, h, placeholder, crop]
  · intro i h
    obtain ⟨hw, hh⟩ := hres i
    simp only [loadThumb, h, crop]
    refine ⟨by omega, by omega, by omega, by trivial⟩
  · intro cache ws w hw
    exact (reconstruct_key_set decode resize cache ws w.uuid).mpr
      (List.mem_map_of_mem _ hw)

/-- Witness for `c9_thumbnail_pipeline` with concrete collaborators: a bad
file yields the placeholder entry, a good 800x600 file yields a square
512-capped thumbnail. -/
theorem c9_thumbnail_pipeline_witness :
    loadThumb decodeW resizeW "bad.png" = (⟨128, 128⟩, ⟨0, 0⟩) ∧
    (loadThumb decodeW resizeW "good.png").1.width
      = min (resizeW ⟨800, 600⟩).width (resizeW ⟨800, 600⟩).height := by
  have hres : ∀ i, (resizeW i).width ≤ 512 ∧ (resizeW i).height ≤ 512 :=
    fun i => ⟨Nat.min_le_right _ _, Nat.min_le_right _ _⟩
  have h1 := c9_thumbnail_pipeline decodeW resizeW "bad.png" hres
  have h2 := c9_thumbnail_pipeline decodeW resizeW "good.png" hres
  exact ⟨h1.1 (by decide), (h2.2.1 ⟨800, 600⟩ (by decide)).1⟩

end Adwapach
